import Mathlib

/-!
Verification of the preset registry of the webdav-mcp repository.

The repository ships two variants of the presets module (`src/unnamed/part_003`):
an `fs/promises` variant (lines 1-218) and a synchronous `fs` variant
(lines 219-431).  The two variants share the validator, the cache-validity
check and `mergeProperties`; they differ in how `loadUserPresets` merges the
built-ins with the user presets (a name-keyed `Map` vs plain concatenation)
and in whether `generatePropfindXml` escapes namespace values.  Both variants
are embedded below; definitions carrying a `Map` suffix come from the
`fs/promises` variant and definitions carrying a `Concat` suffix from the
synchronous variant.  Shared code is embedded once under its source name.
-/

/-- A parsed JSON value, the input type of `validatePreset` (the TS code
receives `any` produced by `JSON.parse`).  Numbers are modelled as integers;
no claim depends on fractional values.  Objects produced by `JSON.parse`
have pairwise distinct keys (a duplicate key keeps only the last entry). -/
inductive JsonValue where
  | null
  | bool (b : Bool)
  | num (n : Int)
  | str (s : String)
  | arr (elems : List JsonValue)
  | obj (fields : List (String × JsonValue))

/-- JavaScript truthiness of a parsed JSON value (`!v` in the source). -/
def truthy : JsonValue → Bool
  | .null => false
  | .bool b => b
  | .num n => n != 0
  | .str s => s != ""
  | .arr _ => true
  | .obj _ => true

/-- `typeof v === 'object'` for a parsed JSON value: true for objects,
arrays and `null`; the source always pairs it with a truthiness test,
which rules `null` out. -/
def isObjectType : JsonValue → Bool
  | .obj _ => true
  | .arr _ => true
  | .null => true
  | _ => false

/-- JavaScript property access `v.key` on a parsed JSON value: a lookup on
objects, `undefined` (modelled as `none`) on every other value. -/
def getField (v : JsonValue) (key : String) : Option JsonValue :=
  match v with
  | .obj fields => (fields.find? (fun kv => kv.1 == key)).map (·.2)
  | _ => none

/-- `Array.prototype.join` with the given separator, as used by the source
(`.join(' ')`, `.join('\n    ')`, and the `,` join of JS `String([...])`). -/
def joinSep (sep : String) : List String → String
  | [] => ""
  | [x] => x
  | x :: rest => x ++ sep ++ joinSep sep rest

mutual
/-- One array element under JavaScript `String([...])` conversion:
`null` becomes the empty string, other values convert as usual. -/
def jsElemToString : JsonValue → String
  | .null => ""
  | .bool true => "true"
  | .bool false => "false"
  | .num n => toString n
  | .str s => s
  | .arr xs => jsArrToString xs
  | .obj _ => "[object Object]"

/-- JavaScript `Array.prototype.toString`: elements joined by `,`. -/
def jsArrToString : List JsonValue → String
  | [] => ""
  | [x] => jsElemToString x
  | x :: rest => jsElemToString x ++ "," ++ jsArrToString rest
end

/-- JavaScript `String(v)` conversion of a parsed JSON value. -/
def jsToString : JsonValue → String
  | .null => "null"
  | .bool true => "true"
  | .bool false => "false"
  | .num n => toString n
  | .str s => s
  | .arr xs => jsArrToString xs
  | .obj _ => "[object Object]"

/-- `PropertyDefinition` from the source: `{ namespace: string, name: string }`. -/
structure PropertyDefinition where
  «namespace» : String
  name : String
deriving DecidableEq

/-- `PropertyPreset` from the source.  The optional `description` is
`Option String`; the optional `builtin` flag is materialised by
`validatePreset` and by the built-in catalogue, so it is a plain `Bool`. -/
structure PropertyPreset where
  name : String
  description : Option String
  properties : List PropertyDefinition
  builtin : Bool
deriving DecidableEq

/-- The fixed built-in catalogue `BUILTIN_PRESETS` (identical in both variants). -/
def BUILTIN_PRESETS : List PropertyPreset :=
  [ { name := "basic",
      description := some "Essential file properties",
      builtin := true,
      properties :=
        [ ⟨"DAV:", "displayname"⟩, ⟨"DAV:", "getcontentlength"⟩,
          ⟨"DAV:", "getlastmodified"⟩, ⟨"DAV:", "resourcetype"⟩,
          ⟨"DAV:", "getcontenttype"⟩ ] },
    { name := "detailed",
      description := some "Detailed resource properties",
      builtin := true,
      properties :=
        [ ⟨"DAV:", "displayname"⟩, ⟨"DAV:", "getcontentlength"⟩,
          ⟨"DAV:", "getlastmodified"⟩, ⟨"DAV:", "resourcetype"⟩,
          ⟨"DAV:", "getcontenttype"⟩, ⟨"DAV:", "creationdate"⟩,
          ⟨"DAV:", "getetag"⟩, ⟨"DAV:", "supportedlock"⟩,
          ⟨"DAV:", "lockdiscovery"⟩ ] },
    { name := "minimal",
      description := some "Minimal properties (resourcetype only)",
      builtin := true,
      properties := [ ⟨"DAV:", "resourcetype"⟩ ] } ]

def MAX_PROPERTIES_PER_PRESET : Nat := 100

def MAX_PRESETS_TOTAL : Nat := 200

/-- Characters removed by JavaScript `String.prototype.trim` (ASCII part;
unicode spaces are not exercised by any claim). -/
def isJsSpace (c : Char) : Bool :=
  c = ' ' || c = '\t' || c = '\n' || c = '\r' || c = '\x0b' || c = '\x0c'

/-- `sanitizeName` from the source: `name.trim()`. -/
def sanitizeName (s : String) : String :=
  ⟨((s.data.dropWhile isJsSpace).reverse.dropWhile isJsSpace).reverse⟩

/-- One character of the preset-name pattern `[-_a-zA-Z0-9]`. -/
def presetNameChar (c : Char) : Bool :=
  c = '-' || c = '_' || ('a' ≤ c && c ≤ 'z') || ('A' ≤ c && c ≤ 'Z') ||
    ('0' ≤ c && c ≤ '9')

/-- `/^[-_a-zA-Z0-9]+$/.test name` from `validatePreset`. -/
def presetNameOk (s : String) : Bool :=
  s.data ≠ [] && s.data.all presetNameChar

/-- One character of the property-name pattern `[-_a-zA-Z0-9:.]`. -/
def propNameChar (c : Char) : Bool :=
  presetNameChar c || c = ':' || c = '.'

/-- `/^[-_a-zA-Z0-9:.]+$/.test name` from the property loop of
`validatePreset`; the regex coerces its argument to a string. -/
def propNameOk (s : String) : Bool :=
  s.data ≠ [] && s.data.all propNameChar

/-- Modelled from the spec: the platform `new URL(ns)` parser is not part of
the repository; per the spec a namespace "must be the literal value `DAV:`
or a syntactically valid absolute URI (has a scheme)", so URL validity is
modelled as having a URI scheme followed by a colon. -/
def hasScheme (s : String) : Bool :=
  match s.data with
  | [] => false
  | c :: rest => c.isAlpha && schemeRest rest
where
  schemeRest : List Char → Bool
    | [] => false
    | c :: rest =>
        if c = ':' then true
        else (c.isAlphanum || c = '+' || c = '-' || c = '.') && schemeRest rest

/-- `isValidNamespace` from the source: `DAV:` is special-cased, everything
else must parse as a URL. -/
def isValidNamespace (ns : String) : Bool :=
  if ns = "DAV:" then true else hasScheme ns

/-- `isValidNamespace(namespace)` applied to a raw field value: `===` with
the string `DAV:` only succeeds for strings, and `new URL` coerces other
values to strings first. -/
def isValidNamespaceJs (v : JsonValue) : Bool :=
  match v with
  | .str s => isValidNamespace s
  | v => hasScheme (jsToString v)

/-- The property loop of `validatePreset`: each element is dropped unless it
is a (truthy) object value with truthy `namespace` and `name` fields that
pass the namespace and name checks.  Values surviving the checks are stored
through their string conversion, which is how every later use of the stored
value reads them. -/
def collectProps : List JsonValue → List PropertyDefinition
  | [] => []
  | p :: rest =>
      if truthy p && isObjectType p then
        match getField p "namespace", getField p "name" with
        | some nsv, some namev =>
            if truthy nsv && truthy namev && isValidNamespaceJs nsv &&
                propNameOk (jsToString namev) then
              ⟨jsToString nsv, jsToString namev⟩ :: collectProps rest
            else collectProps rest
        | _, _ => collectProps rest
      else collectProps rest

/-- `some (.bool true)` test used for `preset.builtin === true`. -/
def isTrueJson : Option JsonValue → Bool
  | some (.bool true) => true
  | _ => false

/-- The description field: kept only when it is a string. -/
def descriptionOf (v : JsonValue) : Option String :=
  match getField v "description" with
  | some (.str d) => some d
  | _ => none

/-- Outcome of `validatePreset`: a preset, the `null` rejection, or a thrown
JavaScript `TypeError` (the source calls `.trim()` on `preset.name` without
checking that it is a string). -/
inductive ValidateResult where
  | ok (p : PropertyPreset)
  | rejected
  | thrown
deriving DecidableEq

/-- `validatePreset` from the source (identical in both variants). -/
def validatePreset (preset : JsonValue) : ValidateResult :=
  if !(truthy preset && isObjectType preset) then .rejected
  else
    match getField preset "name" with
    | some (.str s) =>
        let name := sanitizeName s
        if name = "" || !presetNameOk name then .rejected
        else
          match getField preset "properties" with
          | some (.arr props) =>
              let properties := collectProps props
              if properties.length = 0 ||
                  properties.length > MAX_PROPERTIES_PER_PRESET then .rejected
              else
                .ok { name := name,
                      description := descriptionOf preset,
                      properties := properties,
                      builtin := isTrueJson (getField preset "builtin") }
          | _ => .rejected
    | _ => .thrown

/-- One file of the presets directory: its path, its modification time, and
the outcome of `JSON.parse` on its content (`none` models a parse error). -/
structure FsFile where
  path : String
  mtime : Int
  parsed : Option JsonValue

/-- The state of the presets directory as observed by one load: whether the
directory exists and the files it contains.  Paths stand for the joined
absolute paths the source stores in `mtimes`. -/
structure Fs where
  dirExists : Bool
  files : List FsFile

/-- `fs.stat(file).mtimeMs`, `none` when the stat call fails. -/
def statMtime (fs : Fs) (p : String) : Option Int :=
  (fs.files.find? (fun f => f.path == p)).map (·.mtime)

/-- The `.json` filename filter of `loadUserPresets`. -/
def isJsonFile (p : String) : Bool :=
  ".json".data.isSuffixOf p.data

/-- The per-entry loop over an array-shaped file: valid presets are pushed,
invalid ones are skipped with a warning, and a thrown `TypeError` aborts the
rest of the file's entries (it is caught by the per-file `catch`), keeping
the presets already pushed. -/
def entriesUntilThrow : List JsonValue → List PropertyPreset
  | [] => []
  | e :: rest =>
      match validatePreset e with
      | .ok p => p :: entriesUntilThrow rest
      | .rejected => entriesUntilThrow rest
      | .thrown => []

/-- The presets contributed by one file: nothing if `JSON.parse` failed, the
entry loop for an array, a single validation otherwise (a throw there is
caught by the per-file `catch` and contributes nothing). -/
def filePresets (f : FsFile) : List PropertyPreset :=
  match f.parsed with
  | none => []
  | some (.arr entries) => entriesUntilThrow entries
  | some v =>
      match validatePreset v with
      | .ok p => [p]
      | _ => []

/-- The file walk of `loadUserPresets`: `.json` files in directory order;
each file's mtime is recorded before its content is parsed, so it is
recorded regardless of the parse outcome. -/
def collectUserPresets (fs : Fs) : List PropertyPreset × List (String × Int) :=
  let files := fs.files.filter (fun f => isJsonFile f.path)
  ((files.map filePresets).flatten, files.map (fun f => (f.path, f.mtime)))

/-- `CacheEntry` from the source. -/
structure CacheEntry where
  loadedAt : Int
  presets : List PropertyPreset
  mtimes : List (String × Int)
deriving DecidableEq

/-- Result of one `loadUserPresets` call: the returned list and the module
cache after the call (the over-cap early return leaves the cache as it was). -/
structure LoadResult where
  presets : List PropertyPreset
  cache : Option CacheEntry
deriving DecidableEq

/-- One `presetMap.set(p.name, p)` step of the `fs/promises` variant: a JS
`Map` keeps the first-insertion position of a key and replaces its value. -/
def presetMapInsert (m : List PropertyPreset) (p : PropertyPreset) :
    List PropertyPreset :=
  if m.any (fun q => q.name == p.name) then
    m.map (fun q => if q.name == p.name then p else q)
  else m ++ [p]

/-- `Array.from(presetMap.values())` after seeding the built-ins and then
applying the user presets (`fs/promises` variant, lines 147-151). -/
def presetMapMerge (builtins users : List PropertyPreset) :
    List PropertyPreset :=
  users.foldl presetMapInsert (builtins.foldl presetMapInsert [])

/-- `loadUserPresets` of the `fs/promises` variant (part_003 lines 112-153):
missing directory caches the built-ins alone; more than `MAX_PRESETS_TOTAL`
valid user presets returns a truncated, unmerged list without touching the
cache; otherwise built-ins and user presets are merged through a name-keyed
`Map` and the result is cached. -/
def loadUserPresetsMap (fs : Fs) (now : Int) (oldCache : Option CacheEntry) :
    LoadResult :=
  if !fs.dirExists then
    ⟨BUILTIN_PRESETS, some ⟨now, BUILTIN_PRESETS, []⟩⟩
  else
    let collected := collectUserPresets fs
    if collected.1.length > MAX_PRESETS_TOTAL then
      ⟨collected.1.take MAX_PRESETS_TOTAL, oldCache⟩
    else
      let presets := presetMapMerge BUILTIN_PRESETS collected.1
      ⟨presets, some ⟨now, presets, collected.2⟩⟩

/-- `loadUserPresets` of the synchronous variant (part_003 lines 323-358):
identical to the `fs/promises` variant except that the merged view is the
plain concatenation `[...BUILTIN_PRESETS, ...all]` with no name dedup. -/
def loadUserPresetsConcat (fs : Fs) (now : Int) (oldCache : Option CacheEntry) :
    LoadResult :=
  if !fs.dirExists then
    ⟨BUILTIN_PRESETS, some ⟨now, BUILTIN_PRESETS, []⟩⟩
  else
    let collected := collectUserPresets fs
    if collected.1.length > MAX_PRESETS_TOTAL then
      ⟨collected.1.take MAX_PRESETS_TOTAL, oldCache⟩
    else
      let presets := BUILTIN_PRESETS ++ collected.1
      ⟨presets, some ⟨now, presets, collected.2⟩⟩

/-- `Object.entries(cache.mtimes)` re-stat loop of `cacheValid`: every
tracked path must still stat with an unchanged `mtimeMs`. -/
def mtimesUnchanged (fs : Fs) (mt : List (String × Int)) : Bool :=
  mt.all (fun fm => statMtime fs fm.1 == some fm.2)

/-- `cacheValid` from the source (identical in both variants): no cache, or
`Date.now() - cache.loadedAt > TTL_MS`, or any tracked file changed or
vanished, makes the cache stale. -/
def cacheValid (cache : Option CacheEntry) (ttl now : Int) (fs : Fs) : Bool :=
  match cache with
  | none => false
  | some c =>
      if now - c.loadedAt > ttl then false else mtimesUnchanged fs c.mtimes

/-- Result of one registry access: the returned list, the cache afterwards,
and whether the access fell through to a full `loadUserPresets` run. -/
structure AccessResult where
  presets : List PropertyPreset
  cache : Option CacheEntry
  reloaded : Bool
deriving DecidableEq

/-- `getAllPresets` of the `fs/promises` variant: the cached view when
`cacheValid()` holds (which entails a populated cache), a full reload
otherwise. -/
def getAllPresetsMap (fs : Fs) (ttl now : Int) (cache : Option CacheEntry) :
    AccessResult :=
  match cache with
  | some c =>
      if cacheValid (some c) ttl now fs then ⟨c.presets, some c, false⟩
      else
        let r := loadUserPresetsMap fs now (some c)
        ⟨r.presets, r.cache, true⟩
  | none =>
      let r := loadUserPresetsMap fs now none
      ⟨r.presets, r.cache, true⟩

/-- `getAllPresets` of the synchronous variant. -/
def getAllPresetsConcat (fs : Fs) (ttl now : Int) (cache : Option CacheEntry) :
    AccessResult :=
  match cache with
  | some c =>
      if cacheValid (some c) ttl now fs then ⟨c.presets, some c, false⟩
      else
        let r := loadUserPresetsConcat fs now (some c)
        ⟨r.presets, r.cache, true⟩
  | none =>
      let r := loadUserPresetsConcat fs now none
      ⟨r.presets, r.cache, true⟩

/-- `presets.find(p => p.name === name)` from `getPreset`. -/
def findPreset (presets : List PropertyPreset) (name : String) :
    Option PropertyPreset :=
  presets.find? (fun p => p.name == name)

/-- `getPreset` of the `fs/promises` variant, with the cache it leaves
behind. -/
def getPresetMap (fs : Fs) (ttl now : Int) (cache : Option CacheEntry)
    (name : String) : Option PropertyPreset × AccessResult :=
  let r := getAllPresetsMap fs ttl now cache
  (findPreset r.presets name, r)

/-- `getPreset` of the synchronous variant, with the cache it leaves behind. -/
def getPresetConcat (fs : Fs) (ttl now : Int) (cache : Option CacheEntry)
    (name : String) : Option PropertyPreset × AccessResult :=
  let r := getAllPresetsConcat fs ttl now cache
  (findPreset r.presets name, r)

/-- One global single-character `String.prototype.replace` pass, the shape
of each step of `escapeXmlAttribute`. -/
def replaceAll (t : Char) (r : List Char) : List Char → List Char
  | [] => []
  | c :: cs => (if c = t then r else [c]) ++ replaceAll t r cs

/-- The five replacement passes of `escapeXmlAttribute` on the character
list of the value: `&` is replaced first, then `<`, `>`, `"`, `'`. -/
def escapeData (l : List Char) : List Char :=
  replaceAll '\'' "&apos;".data
    (replaceAll '"' "&quot;".data
      (replaceAll '>' "&gt;".data
        (replaceAll '<' "&lt;".data
          (replaceAll '&' "&amp;".data l))))

/-- `escapeXmlAttribute` from the synchronous variant (part_003 lines
389-396). -/
def escapeXmlAttribute (value : String) : String :=
  ⟨escapeData value.data⟩

/-- The five XML entities as a per-character map; the sequential replaces of
`escapeXmlAttribute` are proved equal to one pass of this map. -/
def entityOf (c : Char) : List Char :=
  if c = '&' then "&amp;".data
  else if c = '<' then "&lt;".data
  else if c = '>' then "&gt;".data
  else if c = '"' then "&quot;".data
  else if c = '\'' then "&apos;".data
  else [c]

/-- `Array.from(new Set(xs))`: distinct values in first-seen order. -/
def dedupFirstAux (seen : List String) : List String → List String
  | [] => []
  | x :: rest =>
      if x ∈ seen then dedupFirstAux seen rest
      else x :: dedupFirstAux (x :: seen) rest

/-- The distinct namespaces of a property list in first-seen order
(`Array.from(new Set(properties.map(p => p.namespace)))`). -/
def namespacesOf (props : List PropertyDefinition) : List String :=
  dedupFirstAux [] (props.map (·.«namespace»))

/-- The prefix-assignment loop of `generatePropfindXml`: `DAV:` gets the
fixed alias `D` (without consuming a counter value), every other namespace
gets `N0`, `N1`, ... in first-seen order. -/
def buildPrefixList : List String → Nat → List (String × String)
  | [], _ => []
  | ns :: rest, counter =>
      if ns = "DAV:" then ("DAV:", "D") :: buildPrefixList rest counter
      else (ns, "N" ++ toString counter) :: buildPrefixList rest (counter + 1)

/-- The `prefixMap` of `generatePropfindXml` as an association list in
insertion order (`Object.entries` iterates string keys in that order). -/
def prefixList (props : List PropertyDefinition) : List (String × String) :=
  buildPrefixList (namespacesOf props) 0

/-- `prefixMap[p.namespace]`; the `"undefined"` default mirrors a JS lookup
miss and is unreachable for namespaces taken from `props`. -/
def prefixOf (props : List PropertyDefinition) (ns : String) : String :=
  (((prefixList props).find? (fun e => e.1 == ns)).map (·.2)).getD "undefined"

/-- The `xmlnsDecl` string of the synchronous variant: namespace values are
escaped before being placed into the attribute. -/
def xmlnsDecl (props : List PropertyDefinition) : String :=
  joinSep " " ((prefixList props).map
    (fun e => "xmlns:" ++ e.2 ++ "=\"" ++ escapeXmlAttribute e.1 ++ "\""))

/-- The `xmlnsDecl` string of the `fs/promises` variant (part_003 lines
198-200): the namespace value is interpolated verbatim, unescaped. -/
def xmlnsDeclRaw (props : List PropertyDefinition) : String :=
  joinSep " " ((prefixList props).map
    (fun e => "xmlns:" ++ e.2 ++ "=\"" ++ e.1 ++ "\""))

/-- The `propLines` string: one self-closing element per property, joined
with a newline and four spaces. -/
def propLines (props : List PropertyDefinition) : String :=
  joinSep "\n    " (props.map
    (fun p => "<" ++ prefixOf props p.«namespace» ++ ":" ++ p.name ++ "/>"))

/-- `generatePropfindXml` of the synchronous variant (part_003 lines
398-417), with attribute escaping. -/
def generatePropfindXml (props : List PropertyDefinition) : String :=
  "<?xml version=\"1.0\" encoding=\"utf-8\"?>\n<D:propfind " ++
    xmlnsDecl props ++ ">\n  <D:prop>\n    " ++ propLines props ++
    "\n  </D:prop>\n</D:propfind>"

/-- `generatePropfindXml` of the `fs/promises` variant (part_003 lines
185-204), without attribute escaping. -/
def generatePropfindXmlRaw (props : List PropertyDefinition) : String :=
  "<?xml version=\"1.0\" encoding=\"utf-8\"?>\n<D:propfind " ++
    xmlnsDeclRaw props ++ ">\n  <D:prop>\n    " ++ propLines props ++
    "\n  </D:prop>\n</D:propfind>"

/-- The aliases declared on the root element, in declaration order. -/
def declaredAliases (props : List PropertyDefinition) : List String :=
  (prefixList props).map (·.2)

/-- The aliases used by the elements of the generated document: the
hardcoded `D` of `<D:propfind>` and `<D:prop>`, and the looked-up alias of
each property element. -/
def usedAliases (props : List PropertyDefinition) : List String :=
  "D" :: "D" :: props.map (fun p => prefixOf props p.«namespace»)

/-- The identity key `${p.namespace}::${p.name}` of `mergeProperties`. -/
def propKey (p : PropertyDefinition) : String :=
  p.«namespace» ++ "::" ++ p.name

/-- The `seen`/`dedup` loop of `mergeProperties`. -/
def dedupLoop (seen : List String) : List PropertyDefinition →
    List PropertyDefinition
  | [] => []
  | p :: rest =>
      if propKey p ∈ seen then dedupLoop seen rest
      else p :: dedupLoop (propKey p :: seen) rest

/-- `mergeProperties` from the source (identical in both variants): the
optional `extra` defaults to the empty list. -/
def mergeProperties (base : List PropertyDefinition)
    (extra : Option (List PropertyDefinition)) : List PropertyDefinition :=
  dedupLoop [] (base ++ extra.getD [])

/-- The dedup rule as the spec words it: concatenate, then keep the first
occurrence of each `namespace::name` key, in position.  Stated independently
of the implementation for the refinement claim C9. -/
def dedupByKeyFirstSpec : List PropertyDefinition → List PropertyDefinition
  | [] => []
  | p :: rest =>
      p :: dedupByKeyFirstSpec (rest.filter (fun q => propKey q != propKey p))
termination_by l => l.length
decreasing_by
  simp only [List.length_cons]
  exact Nat.lt_succ_of_le (List.length_filter_le _ _)

/-- What it means for an optional result to be the first element of `l`
named `n` (spec-side notion for claim C10). -/
def FirstNamed (l : List PropertyPreset) (n : String) :
    Option PropertyPreset → Prop
  | none => ∀ p, p ∈ l → p.name ≠ n
  | some p => p.name = n ∧
      ∃ pre post, l = pre ++ p :: post ∧ ∀ q, q ∈ pre → q.name ≠ n

/-- Does a string contain one of the characters the spec calls out (`&`,
`<`, `>`)? -/
def hasSpecialChar (s : String) : Bool :=
  s.data.any (fun c => c = '&' || c = '<' || c = '>')

/-- The characters that can follow `&` at the start of an XML entity. -/
def ampHeads : List Char := ['a', 'l', 'g', 'q']

/-- Every `&` of the list is immediately followed by a character that can
start an entity tail: true of every escaped attribute value. -/
def ampsOk : List Char → Bool
  | [] => true
  | c :: rest =>
      (c ≠ '&' || (match rest with
                   | [] => false
                   | d :: _ => decide (d ∈ ampHeads))) && ampsOk rest

/-- Every `&` of the list is immediately followed by a character that can
not continue an entity: such a string cannot realign with escaped output
(the proviso of the amended claim C6). -/
def goodAmps : List Char → Bool
  | [] => true
  | c :: rest =>
      (c ≠ '&' || (match rest with
                   | [] => false
                   | d :: _ => decide (d ∉ ampHeads))) && goodAmps rest

/-- The user file of the repository's `testUserPresetOverride` test: a
preset named like the built-in `basic`. -/
def userBasicJson : JsonValue :=
  .obj [ ("name", .str "basic"),
         ("description", .str "Custom basic preset"),
         ("properties",
           .arr [.obj [("namespace", .str "DAV:"), ("name", .str "custom-prop")]]) ]

/-- The preset `validatePreset` produces from `userBasicJson`. -/
def userBasicPreset : PropertyPreset :=
  { name := "basic",
    description := some "Custom basic preset",
    properties := [⟨"DAV:", "custom-prop"⟩],
    builtin := false }

/-- A presets directory holding exactly the override file above. -/
def fsOverride : Fs :=
  ⟨true, [⟨"custom.json", 10, some userBasicJson⟩]⟩

/-- A raw preset entry named `p<i>` with one valid `DAV:` property. -/
def plainEntryJson (i : Nat) : JsonValue :=
  .obj [ ("name", .str ("p" ++ toString i)),
         ("properties",
           .arr [.obj [("namespace", .str "DAV:"), ("name", .str "a")]]) ]

/-- A presets directory holding one file with 201 valid presets, one more
than `MAX_PRESETS_TOTAL`. -/
def fsManyPresets : Fs :=
  ⟨true, [⟨"many.json", 1, some (.arr ((List.range 201).map plainEntryJson))⟩]⟩

/-- A raw preset that carries `builtin: true` in the file. -/
def builtinTrueJson : JsonValue :=
  .obj [ ("name", .str "sneaky"),
         ("builtin", .bool true),
         ("properties",
           .arr [.obj [("namespace", .str "DAV:"), ("name", .str "a")]]) ]

/-- The same raw preset without the `builtin` field. -/
def builtinAbsentJson : JsonValue :=
  .obj [ ("name", .str "sneaky"),
         ("properties",
           .arr [.obj [("namespace", .str "DAV:"), ("name", .str "a")]]) ]

/-- A presets directory with one tracked, unchanged file (mtime 5). -/
def fsTtl : Fs :=
  ⟨true, [⟨"a.json", 5, some userBasicJson⟩]⟩

/-- A populated cache loaded from `fsTtl` at time 0. -/
def cacheTtl : CacheEntry :=
  ⟨0, BUILTIN_PRESETS ++ [userBasicPreset], [("a.json", 5)]⟩

/-- The `seen` list as it stands after `dedupLoop` has walked a list:
used to state how the `mergeProperties` loop treats an appended tail. -/
def seenAfter (seen : List String) : List PropertyDefinition → List String
  | [] => seen
  | p :: rest =>
      if propKey p ∈ seen then seenAfter seen rest
      else seenAfter (propKey p :: seen) rest

/-- A namespace that passes `isValidNamespace` and already contains the
character sequence `&amp;`: escaping it duplicates the entity tail, so the
raw namespace string reappears inside the escaped output. -/
def nsSneaky : String := "http://x/&amp;"

/-- A property list carrying the pre-escaped namespace above. -/
def propsSneaky : List PropertyDefinition := [⟨nsSneaky, "t"⟩]

/-- A property list with no `DAV:` property at all. -/
def propsNoDav : List PropertyDefinition := [⟨"http://example.com/ns", "a"⟩]

/-- A property list with only `DAV:` properties. -/
def propsDav : List PropertyDefinition := [⟨"DAV:", "resourcetype"⟩]

/-- A namespace whose single `&` is followed by `b`, which cannot continue
an XML entity. -/
def nsGoodAmp : String := "http://e/a&b"

/-- A property list carrying the namespace above. -/
def propsGoodAmp : List PropertyDefinition := [⟨nsGoodAmp, "t"⟩]

theorem names_presetMapInsert_mem (m : List PropertyPreset)
    (p : PropertyPreset) (h : m.any (fun q => q.name == p.name) = true) :
    (presetMapInsert m p).map PropertyPreset.name =
      m.map PropertyPreset.name := by
  simp only [presetMapInsert, h, if_true, List.map_map]
  refine List.map_congr_left ?_
  intro q _
  by_cases hq : q.name = p.name
  · simp [Function.comp, hq]
  · simp [Function.comp, hq]

theorem names_presetMapInsert_notMem (m : List PropertyPreset)
    (p : PropertyPreset) (h : m.any (fun q => q.name == p.name) = false) :
    (presetMapInsert m p).map PropertyPreset.name =
      m.map PropertyPreset.name ++ [p.name] := by
  simp only [presetMapInsert, h]
  simp

theorem nodup_names_presetMapInsert (m : List PropertyPreset)
    (p : PropertyPreset) (h : (m.map PropertyPreset.name).Nodup) :
    ((presetMapInsert m p).map PropertyPreset.name).Nodup := by
  cases hany : m.any (fun q => q.name == p.name) with
  | true => rw [names_presetMapInsert_mem m p hany]; exact h
  | false =>
      rw [names_presetMapInsert_notMem m p hany]
      have hnot : p.name ∉ m.map PropertyPreset.name := by
        intro hmem
        rcases List.mem_map.mp hmem with ⟨q, hq, hqname⟩
        have : m.any (fun q => q.name == p.name) = true :=
          List.any_eq_true.mpr ⟨q, hq, by simp [hqname]⟩
        simp [this] at hany
      simp [List.nodup_append, h, hnot]

theorem nodup_names_foldl_insert (users : List PropertyPreset) :
    ∀ m : List PropertyPreset, (m.map PropertyPreset.name).Nodup →
      ((users.foldl presetMapInsert m).map PropertyPreset.name).Nodup := by
  induction users with
  | nil => intro m h; simpa using h
  | cons u rest ih =>
      intro m h
      exact ih (presetMapInsert m u) (nodup_names_presetMapInsert m u h)

theorem nodup_names_presetMapMerge (users : List PropertyPreset) :
    ((presetMapMerge BUILTIN_PRESETS users).map PropertyPreset.name).Nodup := by
  exact nodup_names_foldl_insert users _ (by decide)

theorem findPreset_firstNamed (l : List PropertyPreset) (n : String) :
    FirstNamed l n (findPreset l n) := by
  induction l with
  | nil =>
      simp only [findPreset, List.find?_nil, FirstNamed]
      intro p hp
      exact absurd hp (List.not_mem_nil p)
  | cons head tail ih =>
      by_cases h : head.name = n
      · have : findPreset (head :: tail) n = some head := by
          simp [findPreset, List.find?_cons, h]
        rw [this]
        exact ⟨h, [], tail, rfl, by intro q hq; exact absurd hq (List.not_mem_nil q)⟩
      · have hstep : findPreset (head :: tail) n = findPreset tail n := by
          simp [findPreset, List.find?_cons, h]
        rw [hstep]
        cases hfind : findPreset tail n with
        | none =>
            have ihn := ih
            rw [hfind] at ihn
            simp only [FirstNamed] at ihn ⊢
            intro p hp
            rcases List.mem_cons.mp hp with rfl | hmem
            · exact h
            · exact ihn p hmem
        | some p =>
            have ihn := ih
            rw [hfind] at ihn
            simp only [FirstNamed] at ihn ⊢
            rcases ihn with ⟨hname, pre, post, hsplit, hpre⟩
            refine ⟨hname, head :: pre, post, by simp [hsplit], ?_⟩
            intro q hq
            rcases List.mem_cons.mp hq with rfl | hmem
            · exact h
            · exact hpre q hmem

/-- Claim C1: a valid user preset named like a built-in must replace the
built-in's description and properties in the merged view, and `getPreset`
must return the user preset.  The `fs/promises` variant does this through
its name-keyed `Map`, but the synchronous variant concatenates without
dedup, so `getPreset "basic"` finds the built-in first — contradicting the
repository's own `testUserPresetOverride` test.  This theorem evaluates
both variants on the test's own fixture. -/
theorem presets_C1_override_bug :
    (getPresetConcat fsOverride 5000 10 none "basic").1 = BUILTIN_PRESETS.head? ∧
    (getPresetConcat fsOverride 5000 10 none "basic").1 ≠ some userBasicPreset ∧
    (getPresetMap fsOverride 5000 10 none "basic").1 = some userBasicPreset ∧
    ((getAllPresetsConcat fsOverride 5000 10 none).presets.filter
        (fun p => p.name == "basic")).length = 2 := by
  decide

/-- Claim C2 counterexample: one valid user preset named `basic` makes the
synchronous `loadUserPresets` store and return a view with two presets of
that name. -/
theorem presets_C2_cex :
    ((loadUserPresetsConcat fsOverride 10 none).presets.filter
        (fun p => p.name == "basic")).length = 2 ∧
    (loadUserPresetsConcat fsOverride 10 none).cache =
      some ⟨10, (loadUserPresetsConcat fsOverride 10 none).presets,
            [("custom.json", 10)]⟩ := by
  decide

/-- Claim C2 (amended): in the `fs/promises` variant every load either
leaves the cache untouched (the over-cap early return) or stores a view
whose preset names are pairwise distinct, and returns exactly that view. -/
theorem presets_C2_amended (fs : Fs) (now : Int) (old : Option CacheEntry) :
    (loadUserPresetsMap fs now old).cache = old ∨
    ∃ c, (loadUserPresetsMap fs now old).cache = some c ∧
      (loadUserPresetsMap fs now old).presets = c.presets ∧
      (c.presets.map PropertyPreset.name).Nodup := by
  cases hdir : fs.dirExists with
  | false =>
      refine Or.inr ⟨⟨now, BUILTIN_PRESETS, []⟩, ?_, ?_, ?_⟩
      · simp [loadUserPresetsMap, hdir]
      · simp [loadUserPresetsMap, hdir]
      · show (BUILTIN_PRESETS.map PropertyPreset.name).Nodup
        decide
  | true =>
      by_cases hlen : (collectUserPresets fs).1.length > MAX_PRESETS_TOTAL
      · exact Or.inl (by simp [loadUserPresetsMap, hdir, hlen])
      · refine Or.inr ⟨⟨now,
          presetMapMerge BUILTIN_PRESETS (collectUserPresets fs).1,
          (collectUserPresets fs).2⟩, ?_, ?_, ?_⟩
        · simp [loadUserPresetsMap, hdir, hlen]
        · simp [loadUserPresetsMap, hdir, hlen]
        · show ((presetMapMerge BUILTIN_PRESETS
              (collectUserPresets fs).1).map PropertyPreset.name).Nodup
          exact nodup_names_presetMapMerge _

theorem length_presetMapInsert (m : List PropertyPreset) (p : PropertyPreset) :
    (presetMapInsert m p).length ≤ m.length + 1 := by
  unfold presetMapInsert
  split
  · simp
  · simp

theorem length_foldl_insert (users : List PropertyPreset) :
    ∀ m : List PropertyPreset,
      (users.foldl presetMapInsert m).length ≤ m.length + users.length := by
  induction users with
  | nil => intro m; simp
  | cons u rest ih =>
      intro m
      calc ((u :: rest).foldl presetMapInsert m).length
          = (rest.foldl presetMapInsert (presetMapInsert m u)).length := rfl
        _ ≤ (presetMapInsert m u).length + rest.length := ih _
        _ ≤ (m.length + 1) + rest.length :=
            Nat.add_le_add_right (length_presetMapInsert m u) _
        _ = m.length + (u :: rest).length := by simp [Nat.add_assoc, Nat.add_comm 1]

theorem seed_builtins_eq :
    BUILTIN_PRESETS.foldl presetMapInsert [] = BUILTIN_PRESETS := by
  decide

theorem mem_presetMapInsert (m : List PropertyPreset) (u p : PropertyPreset)
    (hp : p ∈ m) :
    ∃ q ∈ presetMapInsert m u, q.name = p.name ∧ (q = p ∨ q = u) := by
  by_cases hany : m.any (fun q => q.name == u.name) = true
  · have hrw : presetMapInsert m u =
        m.map (fun q => if q.name == u.name then u else q) := by
      unfold presetMapInsert; rw [if_pos hany]
    rw [hrw]
    by_cases hname : p.name = u.name
    · exact ⟨u, List.mem_map.mpr ⟨p, hp, by simp [hname]⟩, hname.symm, Or.inr rfl⟩
    · exact ⟨p, List.mem_map.mpr ⟨p, hp, by simp [hname]⟩, rfl, Or.inl rfl⟩
  · have hrw : presetMapInsert m u = m ++ [u] := by
      unfold presetMapInsert; rw [if_neg hany]
    rw [hrw]
    exact ⟨p, by simp [hp], rfl, Or.inl rfl⟩

theorem mem_foldl_insert (users : List PropertyPreset) :
    ∀ (m : List PropertyPreset) (b : PropertyPreset), b ∈ m →
      ∃ p ∈ users.foldl presetMapInsert m,
        p.name = b.name ∧ (p = b ∨ p ∈ users) := by
  induction users with
  | nil =>
      intro m b hb
      exact ⟨b, hb, rfl, Or.inl rfl⟩
  | cons u rest ih =>
      intro m b hb
      rcases mem_presetMapInsert m u b hb with ⟨q1, hq1, hq1name, hq1or⟩
      rcases ih (presetMapInsert m u) q1 hq1 with ⟨p, hpmem, hpname, hpor⟩
      refine ⟨p, hpmem, hpname.trans hq1name, ?_⟩
      rcases hpor with rfl | hprest
      · rcases hq1or with rfl | rfl
        · exact Or.inl rfl
        · exact Or.inr (List.mem_cons_self _ _)
      · exact Or.inr (List.mem_cons_of_mem _ hprest)

set_option maxRecDepth 8000 in
/-- Claim C3 counterexample: 201 valid user presets make the load return
the first 200 user presets only — every built-in is gone (every returned
preset has `builtin = false`), contradicting "the built-ins are never among
the truncated entries"; the cache is not even updated. -/
theorem presets_C3_cex :
    (loadUserPresetsMap fsManyPresets 1 none).presets.length = 200 ∧
    (∀ p ∈ (loadUserPresetsMap fsManyPresets 1 none).presets,
      p.builtin = false) ∧
    (loadUserPresetsMap fsManyPresets 1 none).cache = none := by
  decide

/-- Claim C3 (amended, `fs/promises` variant): when at most 200 valid user
presets are collected, the merged view holds every built-in (as itself or
overridden by a same-named user preset) and at most `3 + user-count`
presets — so the "at most 200" cap of the claim can be exceeded (up to
203); when more than 200 are collected, the returned view is just the
first 200 user presets with no built-ins, and the cache keeps its old
value. -/
theorem presets_C3_amended (fs : Fs) (now : Int) (old : Option CacheEntry) :
    (fs.dirExists = true →
      (collectUserPresets fs).1.length ≤ MAX_PRESETS_TOTAL →
      (loadUserPresetsMap fs now old).presets.length ≤
          BUILTIN_PRESETS.length + (collectUserPresets fs).1.length ∧
      ∀ b ∈ BUILTIN_PRESETS,
        ∃ p ∈ (loadUserPresetsMap fs now old).presets,
          p.name = b.name ∧ (p = b ∨ p ∈ (collectUserPresets fs).1)) ∧
    (fs.dirExists = true →
      (collectUserPresets fs).1.length > MAX_PRESETS_TOTAL →
      (loadUserPresetsMap fs now old).presets =
          (collectUserPresets fs).1.take MAX_PRESETS_TOTAL ∧
      (loadUserPresetsMap fs now old).cache = old) := by
  constructor
  · intro hdir hlen
    have hnot : ¬ (collectUserPresets fs).1.length > MAX_PRESETS_TOTAL :=
      Nat.not_lt.mpr hlen
    have hpres : (loadUserPresetsMap fs now old).presets =
        presetMapMerge BUILTIN_PRESETS (collectUserPresets fs).1 := by
      simp [loadUserPresetsMap, hdir, hnot]
    constructor
    · rw [hpres]
      unfold presetMapMerge
      rw [seed_builtins_eq]
      exact length_foldl_insert _ _
    · intro b hb
      rw [hpres]
      unfold presetMapMerge
      rw [seed_builtins_eq]
      exact mem_foldl_insert _ _ b hb
  · intro hdir hlen
    constructor
    · simp [loadUserPresetsMap, hdir, hlen]
    · simp [loadUserPresetsMap, hdir, hlen]

set_option maxRecDepth 8000 in
/-- Witness for `presets_C3_amended`: the first part at the override
directory, the second at the 201-preset directory. -/
theorem presets_C3_amended_witness :
    ((loadUserPresetsMap fsOverride 10 none).presets.length ≤
        BUILTIN_PRESETS.length + (collectUserPresets fsOverride).1.length ∧
      ∀ b ∈ BUILTIN_PRESETS,
        ∃ p ∈ (loadUserPresetsMap fsOverride 10 none).presets,
          p.name = b.name ∧ (p = b ∨ p ∈ (collectUserPresets fsOverride).1)) ∧
    ((loadUserPresetsMap fsManyPresets 1 none).presets =
        (collectUserPresets fsManyPresets).1.take MAX_PRESETS_TOTAL ∧
      (loadUserPresetsMap fsManyPresets 1 none).cache = none) :=
  ⟨(presets_C3_amended fsOverride 10 none).1 (by decide) (by decide),
   (presets_C3_amended fsManyPresets 1 none).2 (by decide) (by decide)⟩

/-- Claim C4 counterexample: the validator copies the raw `builtin` flag
(`preset.builtin === true`) instead of ignoring it — a loaded file claiming
`builtin: true` yields a preset marked built-in, while the same file
without the flag does not. -/
theorem presets_C4_cex :
    validatePreset builtinTrueJson =
      .ok ⟨"sneaky", none, [⟨"DAV:", "a"⟩], true⟩ ∧
    validatePreset builtinAbsentJson =
      .ok ⟨"sneaky", none, [⟨"DAV:", "a"⟩], false⟩ := by
  decide

/-- Claim C4 (amended): for every raw input the validator accepts, the
`builtin` flag of the returned preset equals the test
`raw.builtin === true` on the raw input — it is not independent of it. -/
theorem presets_C4_amended (raw : JsonValue) (p : PropertyPreset)
    (h : validatePreset raw = .ok p) :
    p.builtin = isTrueJson (getField raw "builtin") := by
  simp only [validatePreset] at h
  repeat' split at h
  all_goals first
    | exact ValidateResult.noConfusion h
    | (cases h; rfl)

/-- Witness for `presets_C4_amended` at the concrete `builtin: true` file. -/
theorem presets_C4_amended_witness :
    (⟨"sneaky", none, [⟨"DAV:", "a"⟩], true⟩ : PropertyPreset).builtin =
      isTrueJson (getField builtinTrueJson "builtin") :=
  presets_C4_amended builtinTrueJson _ (by decide)

/-- Claim C5: `validatePreset` was specified never to throw, but it calls
`.trim()` on `preset.name` without checking for a string: an object with a
missing or non-string `name` makes it throw a `TypeError` instead of
returning `null` (non-object inputs are still rejected cleanly). -/
theorem presets_C5_throw_bug :
    validatePreset (.obj []) = .thrown ∧
    validatePreset (.obj [("name", .num 5)]) = .thrown ∧
    validatePreset (.arr []) = .thrown ∧
    validatePreset .null = .rejected ∧
    validatePreset (.str "x") = .rejected ∧
    validatePreset (.num 7) = .rejected := by
  decide

/-- Claim C10: in both variants, `getPreset n` returns exactly the first
element of the `getAllPresets` view whose name is `n`, and the not-found
result when no element matches. -/
theorem presets_C10_getPreset_first (fs : Fs) (ttl now : Int)
    (cache : Option CacheEntry) (n : String) :
    FirstNamed (getAllPresetsConcat fs ttl now cache).presets n
      (getPresetConcat fs ttl now cache n).1 ∧
    FirstNamed (getAllPresetsMap fs ttl now cache).presets n
      (getPresetMap fs ttl now cache n).1 :=
  ⟨findPreset_firstNamed _ _, findPreset_firstNamed _ _⟩

/-- Claim C8 counterexample: with TTL 0, a populated cache and a tracked
file whose mtime is unchanged, an access one millisecond after `loadedAt`
finds the cache stale (the TTL test `now - loadedAt > 0` fails first) and
performs a full reload — the claim said the cached view would be reused. -/
theorem presets_C8_cex :
    mtimesUnchanged fsTtl cacheTtl.mtimes = true ∧
    cacheValid (some cacheTtl) 0 1 fsTtl = false ∧
    (getAllPresetsConcat fsTtl 0 1 (some cacheTtl)).reloaded = true := by
  decide

/-- Claim C8 (amended): with TTL 0 the cached view is reused — after the
mtime re-check — only when the access happens at the very clock value of
`loadedAt`; any access at a strictly later time treats the cache as stale
and runs a full reload regardless of the tracked mtimes.  TTL 0 forces
reloads (as the repository's own test uses it); it does not avoid them. -/
theorem presets_C8_amended (c : CacheEntry) (fs : Fs) (now : Int) :
    (now = c.loadedAt → mtimesUnchanged fs c.mtimes = true →
      cacheValid (some c) 0 now fs = true ∧
      getAllPresetsConcat fs 0 now (some c) = ⟨c.presets, some c, false⟩) ∧
    (now > c.loadedAt →
      cacheValid (some c) 0 now fs = false ∧
      (getAllPresetsConcat fs 0 now (some c)).reloaded = true) := by
  constructor
  · intro hnow hmt
    have hv : cacheValid (some c) 0 now fs = true := by
      show (if now - c.loadedAt > 0 then false else mtimesUnchanged fs c.mtimes) = true
      rw [if_neg]
      · exact hmt
      · simp [hnow]
    exact ⟨hv, by simp [getAllPresetsConcat, hv]⟩
  · intro hgt
    have hv : cacheValid (some c) 0 now fs = false := by
      show (if now - c.loadedAt > 0 then false else mtimesUnchanged fs c.mtimes) = false
      rw [if_pos]
      exact Int.sub_pos.mpr hgt
    exact ⟨hv, by simp [getAllPresetsConcat, hv]⟩

/-- Witness for `presets_C8_amended`: reuse at `now = loadedAt = 0`, forced
reload at `now = 1`, over the concrete cache and directory above. -/
theorem presets_C8_amended_witness :
    (cacheValid (some cacheTtl) 0 0 fsTtl = true ∧
      getAllPresetsConcat fsTtl 0 0 (some cacheTtl) =
        ⟨cacheTtl.presets, some cacheTtl, false⟩) ∧
    (cacheValid (some cacheTtl) 0 1 fsTtl = false ∧
      (getAllPresetsConcat fsTtl 0 1 (some cacheTtl)).reloaded = true) :=
  ⟨(presets_C8_amended cacheTtl fsTtl 0).1 (by decide) (by decide),
   (presets_C8_amended cacheTtl fsTtl 1).2 (by decide)⟩

theorem dedupByKeyFirstSpec_nil : dedupByKeyFirstSpec [] = [] := by
  rw [dedupByKeyFirstSpec]

theorem dedupByKeyFirstSpec_cons (p : PropertyDefinition)
    (rest : List PropertyDefinition) :
    dedupByKeyFirstSpec (p :: rest) =
      p :: dedupByKeyFirstSpec (rest.filter (fun q => propKey q != propKey p)) := by
  rw [dedupByKeyFirstSpec]

theorem dedupLoop_eq_spec (l : List PropertyDefinition) :
    ∀ seen : List String,
      dedupLoop seen l =
        dedupByKeyFirstSpec (l.filter (fun q => decide (propKey q ∉ seen))) := by
  induction l with
  | nil => intro seen; simp [dedupLoop, dedupByKeyFirstSpec_nil]
  | cons p rest ih =>
      intro seen
      by_cases hmem : propKey p ∈ seen
      · have h1 : dedupLoop seen (p :: rest) = dedupLoop seen rest := by
          simp [dedupLoop, hmem]
        have h2 : (p :: rest).filter (fun q => decide (propKey q ∉ seen)) =
            rest.filter (fun q => decide (propKey q ∉ seen)) := by
          simp [List.filter_cons, hmem]
        rw [h1, h2, ih]
      · have h1 : dedupLoop seen (p :: rest) =
            p :: dedupLoop (propKey p :: seen) rest := by
          simp [dedupLoop, hmem]
        have h2 : (p :: rest).filter (fun q => decide (propKey q ∉ seen)) =
            p :: rest.filter (fun q => decide (propKey q ∉ seen)) := by
          simp [List.filter_cons, hmem]
        rw [h1, h2, dedupByKeyFirstSpec_cons, ih (propKey p :: seen)]
        congr 1
        rw [List.filter_filter]
        congr 1
        apply List.filter_congr
        intro a _
        by_cases ha1 : propKey a = propKey p <;>
          by_cases ha2 : propKey a ∈ seen <;>
            simp [ha1, ha2]

theorem mergeProperties_eq_spec (A B : List PropertyDefinition) :
    mergeProperties A (some B) = dedupByKeyFirstSpec (A ++ B) := by
  unfold mergeProperties
  rw [dedupLoop_eq_spec]
  congr 1
  simp

theorem dedupLoop_append (xs : List PropertyDefinition) :
    ∀ (seen : List String) (ys : List PropertyDefinition),
      dedupLoop seen (xs ++ ys) =
        dedupLoop seen xs ++ dedupLoop (seenAfter seen xs) ys := by
  induction xs with
  | nil => intro seen ys; simp [dedupLoop, seenAfter]
  | cons p rest ih =>
      intro seen ys
      by_cases hmem : propKey p ∈ seen
      · simp [dedupLoop, seenAfter, hmem, ih]
      · simp [dedupLoop, seenAfter, hmem, ih]

theorem dedupLoop_all_seen (ys : List PropertyDefinition) :
    ∀ seen : List String, (∀ y ∈ ys, propKey y ∈ seen) →
      dedupLoop seen ys = [] := by
  induction ys with
  | nil => intro seen _; rfl
  | cons y rest ih =>
      intro seen h
      have hy : propKey y ∈ seen := h y (List.mem_cons_self _ _)
      simp only [dedupLoop, if_pos hy]
      exact ih seen (fun z hz => h z (List.mem_cons_of_mem _ hz))

theorem mem_seenAfter (xs : List PropertyDefinition) :
    ∀ (seen : List String) (k : String),
      k ∈ seen ∨ k ∈ xs.map propKey → k ∈ seenAfter seen xs := by
  induction xs with
  | nil =>
      intro seen k h
      rcases h with h | h
      · exact h
      · exact absurd h (by simp)
  | cons p rest ih =>
      intro seen k h
      by_cases hmem : propKey p ∈ seen
      · simp only [seenAfter, if_pos hmem]
        rcases h with h | h
        · exact ih seen k (Or.inl h)
        · rw [List.map_cons] at h
          rcases List.mem_cons.mp h with rfl | hrest
          · exact ih seen _ (Or.inl hmem)
          · exact ih seen k (Or.inr hrest)
      · simp only [seenAfter, if_neg hmem]
        rcases h with h | h
        · exact ih _ k (Or.inl (List.mem_cons_of_mem _ h))
        · rw [List.map_cons] at h
          rcases List.mem_cons.mp h with rfl | hrest
          · exact ih _ _ (Or.inl (List.mem_cons_self _ _))
          · exact ih _ k (Or.inr hrest)

theorem mem_keys_dedupLoop (l : List PropertyDefinition) :
    ∀ (seen : List String) (k : String),
      k ∈ l.map propKey → k ∉ seen →
        k ∈ (dedupLoop seen l).map propKey := by
  induction l with
  | nil => intro seen k h _; exact absurd h (by simp)
  | cons p rest ih =>
      intro seen k h hk
      rw [List.map_cons] at h
      by_cases hmem : propKey p ∈ seen
      · simp only [dedupLoop, if_pos hmem]
        rcases List.mem_cons.mp h with rfl | hrest
        · exact absurd hmem hk
        · exact ih seen k hrest hk
      · simp only [dedupLoop, if_neg hmem, List.map_cons]
        rcases List.mem_cons.mp h with rfl | hrest
        · exact List.mem_cons_self _ _
        · by_cases hkp : k = propKey p
          · exact hkp ▸ List.mem_cons_self _ _
          · refine List.mem_cons_of_mem _ (ih _ k hrest ?_)
            simp [hkp, hk]

theorem dedupLoop_keys_nodup (l : List PropertyDefinition) :
    ∀ seen : List String,
      ((dedupLoop seen l).map propKey).Nodup ∧
        ∀ k ∈ (dedupLoop seen l).map propKey, k ∉ seen := by
  induction l with
  | nil => intro seen; simp [dedupLoop]
  | cons p rest ih =>
      intro seen
      by_cases hmem : propKey p ∈ seen
      · simpa only [dedupLoop, if_pos hmem] using ih seen
      · rcases ih (propKey p :: seen) with ⟨hnd, hout⟩
        simp only [dedupLoop, if_neg hmem, List.map_cons]
        constructor
        · refine List.nodup_cons.mpr ⟨?_, hnd⟩
          intro hin
          exact (hout _ hin) (List.mem_cons_self _ _)
        · intro k hk
          rcases List.mem_cons.mp hk with rfl | hkrest
          · exact hmem
          · intro hkseen
            exact (hout k hkrest) (List.mem_cons_of_mem _ hkseen)

theorem dedupLoop_fixed (l : List PropertyDefinition) :
    ∀ seen : List String, (∀ x ∈ l, propKey x ∉ seen) →
      (l.map propKey).Nodup → dedupLoop seen l = l := by
  induction l with
  | nil => intro seen _ _; rfl
  | cons p rest ih =>
      intro seen hout hnd
      have hp : propKey p ∉ seen := hout p (List.mem_cons_self _ _)
      simp only [dedupLoop, if_neg hp]
      congr 1
      refine ih _ ?_ (List.nodup_cons.mp (by simpa using hnd)).2
      intro x hx
      have hxk : propKey x ∈ rest.map propKey := List.mem_map_of_mem _ hx
      have hne : propKey x ≠ propKey p := by
        intro he
        exact (List.nodup_cons.mp (by simpa using hnd)).1 (he ▸ hxk)
      simp only [List.mem_cons]
      push_neg
      exact ⟨hne, hout x (List.mem_cons_of_mem _ hx)⟩

/-- Claim C9: `mergeProperties` concatenates `base` then `extra` and
deduplicates by the identity key `namespace::name`, keeping the first
occurrence's position (it equals the spec-side first-occurrence dedup of
the concatenation), and it is idempotent on repeated application. -/
theorem presets_C9_merge (A B : List PropertyDefinition) :
    mergeProperties A (some B) = dedupByKeyFirstSpec (A ++ B) ∧
    mergeProperties (mergeProperties A (some B)) (some B) =
      mergeProperties A (some B) := by
  refine ⟨mergeProperties_eq_spec A B, ?_⟩
  show dedupLoop [] (dedupLoop [] (A ++ B) ++ B) = dedupLoop [] (A ++ B)
  rw [dedupLoop_append]
  have hnd := (dedupLoop_keys_nodup (A ++ B) []).1
  have hfix : dedupLoop [] (dedupLoop [] (A ++ B)) = dedupLoop [] (A ++ B) :=
    dedupLoop_fixed _ [] (by intro x _; simp) hnd
  have hnil : dedupLoop (seenAfter [] (dedupLoop [] (A ++ B))) B = [] := by
    apply dedupLoop_all_seen
    intro y hy
    apply mem_seenAfter
    refine Or.inr ?_
    apply mem_keys_dedupLoop
    · exact List.mem_map_of_mem _ (List.mem_append_right A hy)
    · simp
  rw [hfix, hnil, List.append_nil]

theorem replaceAll_append (t : Char) (r : List Char) :
    ∀ a b : List Char,
      replaceAll t r (a ++ b) = replaceAll t r a ++ replaceAll t r b := by
  intro a b
  induction a with
  | nil => rfl
  | cons c rest ih => simp [replaceAll, ih]

theorem escapeData_nil : escapeData [] = [] := rfl

theorem escapeData_cons (c : Char) (l : List Char) :
    escapeData (c :: l) = entityOf c ++ escapeData l := by
  have h1 : replaceAll '&' "&amp;".data (c :: l) =
      (if c = '&' then "&amp;".data else [c]) ++ replaceAll '&' "&amp;".data l := by
    simp [replaceAll]
  unfold escapeData
  rw [h1]
  simp only [replaceAll_append]
  congr 1
  by_cases h1 : c = '&'
  · subst h1; decide
  by_cases h2 : c = '<'
  · subst h2; decide
  by_cases h3 : c = '>'
  · subst h3; decide
  by_cases h4 : c = '"'
  · subst h4; decide
  by_cases h5 : c = '\''
  · subst h5; decide
  simp [replaceAll, entityOf, h1, h2, h3, h4, h5]

theorem entityOf_no_angle (d : Char) :
    ∀ c ∈ entityOf d, c ≠ '<' ∧ c ≠ '>' := by
  by_cases h1 : d = '&'
  · subst h1; decide
  by_cases h2 : d = '<'
  · subst h2; decide
  by_cases h3 : d = '>'
  · subst h3; decide
  by_cases h4 : d = '"'
  · subst h4; decide
  by_cases h5 : d = '\''
  · subst h5; decide
  intro c hc
  simp only [entityOf, if_neg h1, if_neg h2, if_neg h3, if_neg h4, if_neg h5,
    List.mem_singleton] at hc
  subst hc
  exact ⟨h2, h3⟩

theorem escapeData_no_angle (l : List Char) :
    ∀ c ∈ escapeData l, c ≠ '<' ∧ c ≠ '>' := by
  induction l with
  | nil => intro c hc; rw [escapeData_nil] at hc; exact absurd hc (by simp)
  | cons d rest ih =>
      intro c hc
      rw [escapeData_cons] at hc
      rcases List.mem_append.mp hc with h | h
      · exact entityOf_no_angle d c h
      · exact ih c h

theorem ampsOk_cons_cons (c d : Char) (l : List Char) :
    ampsOk (c :: d :: l) =
      ((decide (c ≠ '&') || decide (d ∈ ampHeads)) && ampsOk (d :: l)) := rfl

theorem ampsOk_one (c : Char) : ampsOk [c] = decide (c ≠ '&') := by
  simp [ampsOk]

theorem ampsOk_tail (c : Char) (l : List Char) (h : ampsOk (c :: l) = true) :
    ampsOk l = true := by
  have : ampsOk (c :: l) = (_ && ampsOk l) := rfl
  rw [this, Bool.and_eq_true] at h
  exact h.2

theorem ampsOk_append (b : List Char) (hb : ampsOk b = true) :
    ∀ a : List Char, ampsOk a = true → a.getLast? ≠ some '&' →
      ampsOk (a ++ b) = true := by
  intro a
  induction a with
  | nil => intro _ _; simpa using hb
  | cons c rest ih =>
      intro ha hlast
      cases rest with
      | nil =>
          have hc : c ≠ '&' := by
            intro h
            exact hlast (by simp [h])
          cases b with
          | nil => simpa using ha
          | cons e b' =>
              rw [List.singleton_append, ampsOk_cons_cons]
              simp only [Bool.and_eq_true, Bool.or_eq_true]
              exact ⟨Or.inl (by simpa using hc), hb⟩
      | cons d rest' =>
          rw [List.cons_append, List.cons_append, ampsOk_cons_cons,
            Bool.and_eq_true]
          rw [ampsOk_cons_cons, Bool.and_eq_true] at ha
          refine ⟨ha.1, ?_⟩
          rw [← List.cons_append]
          exact ih ha.2 (by simpa using hlast)

theorem entityOf_ampsOk (c : Char) :
    ampsOk (entityOf c) = true ∧ (entityOf c).getLast? ≠ some '&' := by
  by_cases h1 : c = '&'
  · subst h1; decide
  by_cases h2 : c = '<'
  · subst h2; decide
  by_cases h3 : c = '>'
  · subst h3; decide
  by_cases h4 : c = '"'
  · subst h4; decide
  by_cases h5 : c = '\''
  · subst h5; decide
  have he : entityOf c = [c] := by
    simp [entityOf, h1, h2, h3, h4, h5]
  rw [he, ampsOk_one]
  exact ⟨by simpa using h1, by simpa using h1⟩

theorem ampsOk_escapeData (l : List Char) : ampsOk (escapeData l) = true := by
  induction l with
  | nil => rfl
  | cons c rest ih =>
      rw [escapeData_cons]
      exact ampsOk_append _ ih _ (entityOf_ampsOk c).1 (entityOf_ampsOk c).2

theorem amp_window (d : Char) :
    ∀ L : List Char, ampsOk L = true → ['&', d] <:+: L → d ∈ ampHeads := by
  intro L
  induction L with
  | nil =>
      intro _ hinf
      obtain ⟨s, t, hst⟩ := hinf
      exact absurd hst (by simp)
  | cons c rest ih =>
      intro hok hinf
      obtain ⟨s, t, hst⟩ := hinf
      cases s with
      | nil =>
          simp only [List.nil_append, List.cons_append, List.cons.injEq] at hst
          obtain ⟨rfl, hrest⟩ := hst
          rw [← hrest] at hok
          rw [ampsOk_cons_cons, Bool.and_eq_true, Bool.or_eq_true] at hok
          rcases hok.1 with h | h
          · simp at h
          · exact of_decide_eq_true h
      | cons x s' =>
          simp only [List.cons_append, List.cons.injEq] at hst
          exact ih (ampsOk_tail c rest hok) ⟨s', t, hst.2⟩

theorem goodAmps_tail (c : Char) (l : List Char)
    (h : goodAmps (c :: l) = true) : goodAmps l = true := by
  have : goodAmps (c :: l) = (_ && goodAmps l) := rfl
  rw [this, Bool.and_eq_true] at h
  exact h.2

theorem goodAmps_splitAmp :
    ∀ l : List Char, '&' ∈ l → goodAmps l = true →
      ∃ u d v, l = u ++ '&' :: d :: v ∧ d ∉ ampHeads := by
  intro l
  induction l with
  | nil => intro h _; exact absurd h (by simp)
  | cons c rest ih =>
      intro hmem hga
      by_cases hc : c = '&'
      · subst hc
        cases rest with
        | nil => exact absurd hga (by decide)
        | cons d v =>
            have hfac : goodAmps ('&' :: d :: v) =
                ((decide (('&' : Char) ≠ '&') || decide (d ∉ ampHeads)) &&
                  goodAmps (d :: v)) := rfl
            rw [hfac, Bool.and_eq_true, Bool.or_eq_true] at hga
            rcases hga.1 with h | h
            · simp at h
            · exact ⟨[], d, v, by simp, of_decide_eq_true h⟩
      · have hmem' : '&' ∈ rest := by
          rcases List.mem_cons.mp hmem with h | h
          · exact absurd h.symm hc
          · exact h
        rcases ih hmem' (goodAmps_tail c rest hga) with ⟨u, d, v, hsplit, hd⟩
        exact ⟨c :: u, d, v, by simp [hsplit], hd⟩

theorem escape_no_raw (ns : String) (hsp : hasSpecialChar ns = true)
    (hga : goodAmps ns.data = true) :
    ¬ (ns.data <:+: escapeData ns.data) := by
  intro hinf
  rcases List.any_eq_true.mp hsp with ⟨c, hcmem, hcval⟩
  rcases Bool.or_eq_true _ _ |>.mp hcval with h | hgt
  · rcases Bool.or_eq_true _ _ |>.mp h with hamp | hlt
    · have hc : c = '&' := of_decide_eq_true hamp
      subst hc
      rcases goodAmps_splitAmp ns.data hcmem hga with ⟨u, d, v, hsplit, hd⟩
      have hw : ['&', d] <:+: ns.data := ⟨u, v, by rw [hsplit]; simp⟩
      exact hd (amp_window d _ (ampsOk_escapeData ns.data)
        (hw.trans hinf))
    · have hc : c = '<' := of_decide_eq_true hlt
      subst hc
      have hcesc : '<' ∈ escapeData ns.data := hinf.sublist.subset hcmem
      exact (escapeData_no_angle ns.data '<' hcesc).1 rfl
  · have hc : c = '>' := of_decide_eq_true hgt
    subst hc
    have hcesc : '>' ∈ escapeData ns.data := hinf.sublist.subset hcmem
    exact (escapeData_no_angle ns.data '>' hcesc).2 rfl

theorem inf_append_left (a : List Char) {t b : List Char} (h : t <:+: b) :
    t <:+: a ++ b := by
  obtain ⟨s, u, hsu⟩ := h
  exact ⟨a ++ s, u, by rw [← hsu]; simp⟩

theorem inf_append_right (e : List Char) {t a : List Char} (h : t <:+: a) :
    t <:+: a ++ e := by
  obtain ⟨s, u, hsu⟩ := h
  exact ⟨s, u ++ e, by rw [← hsu]; simp⟩

theorem mem_joinSep (sep : String) :
    ∀ (l : List String) (x : String), x ∈ l →
      x.data <:+: (joinSep sep l).data := by
  intro l
  induction l with
  | nil => intro x hx; exact absurd hx (by simp)
  | cons y rest ih =>
      intro x hx
      cases rest with
      | nil =>
          rcases List.mem_cons.mp hx with rfl | hx'
          · exact ⟨[], [], by simp [joinSep]⟩
          · exact absurd hx' (by simp)
      | cons z rest' =>
          have hjoin : joinSep sep (y :: z :: rest') =
              y ++ sep ++ joinSep sep (z :: rest') := rfl
          rw [hjoin]
          rcases List.mem_cons.mp hx with rfl | hx'
          · exact ⟨[], sep.data ++ (joinSep sep (z :: rest')).data,
              by simp [String.data_append]⟩
          · have := ih x hx'
            rw [String.data_append, String.data_append]
            rw [List.append_assoc]
            exact inf_append_left _ (inf_append_left _ this)

theorem mem_dedupFirstAux :
    ∀ (l seen : List String) (x : String), x ∈ l → x ∉ seen →
      x ∈ dedupFirstAux seen l := by
  intro l
  induction l with
  | nil => intro seen x hx _; exact absurd hx (by simp)
  | cons y rest ih =>
      intro seen x hx hseen
      by_cases hy : y ∈ seen
      · simp only [dedupFirstAux, if_pos hy]
        rcases List.mem_cons.mp hx with rfl | hx'
        · exact absurd hy hseen
        · exact ih seen x hx' hseen
      · simp only [dedupFirstAux, if_neg hy]
        rcases List.mem_cons.mp hx with rfl | hx'
        · exact List.mem_cons_self _ _
        · by_cases hxy : x = y
          · exact hxy ▸ List.mem_cons_self _ _
          · refine List.mem_cons_of_mem _ (ih _ x hx' ?_)
            simp [hxy, hseen]

theorem nodup_dedupFirstAux :
    ∀ (l seen : List String),
      (dedupFirstAux seen l).Nodup ∧
        ∀ x ∈ dedupFirstAux seen l, x ∉ seen := by
  intro l
  induction l with
  | nil => intro seen; simp [dedupFirstAux]
  | cons y rest ih =>
      intro seen
      by_cases hy : y ∈ seen
      · simpa only [dedupFirstAux, if_pos hy] using ih seen
      · rcases ih (y :: seen) with ⟨hnd, hout⟩
        simp only [dedupFirstAux, if_neg hy]
        constructor
        · refine List.nodup_cons.mpr ⟨?_, hnd⟩
          intro hin
          exact (hout _ hin) (List.mem_cons_self _ _)
        · intro x hx
          rcases List.mem_cons.mp hx with rfl | hx'
          · exact hy
          · intro hxs
            exact (hout x hx') (List.mem_cons_of_mem _ hxs)

theorem exists_mem_buildPrefixList :
    ∀ (l : List String) (c : Nat) (ns : String), ns ∈ l →
      ∃ pfx, (ns, pfx) ∈ buildPrefixList l c := by
  intro l
  induction l with
  | nil => intro c ns h; exact absurd h (by simp)
  | cons x rest ih =>
      intro c ns h
      by_cases hx : x = "DAV:"
      · subst hx
        simp only [buildPrefixList, if_pos rfl]
        rcases List.mem_cons.mp h with rfl | h'
        · exact ⟨"D", List.mem_cons_self _ _⟩
        · rcases ih c ns h' with ⟨pfx, hp⟩
          exact ⟨pfx, List.mem_cons_of_mem _ hp⟩
      · simp only [buildPrefixList, if_neg hx]
        rcases List.mem_cons.mp h with rfl | h'
        · exact ⟨"N" ++ toString c, List.mem_cons_self _ _⟩
        · rcases ih (c + 1) ns h' with ⟨pfx, hp⟩
          exact ⟨pfx, List.mem_cons_of_mem _ hp⟩

theorem dav_mem_buildPrefixList :
    ∀ (l : List String) (c : Nat), "DAV:" ∈ l →
      ("DAV:", "D") ∈ buildPrefixList l c := by
  intro l
  induction l with
  | nil => intro c h; exact absurd h (by simp)
  | cons x rest ih =>
      intro c h
      by_cases hx : x = "DAV:"
      · subst hx
        simp only [buildPrefixList, if_pos rfl]
        exact List.mem_cons_self _ _
      · simp only [buildPrefixList, if_neg hx]
        rcases List.mem_cons.mp h with h' | h'
        · exact absurd h'.symm hx
        · exact List.mem_cons_of_mem _ (ih (c + 1) h')

theorem length_buildPrefixList :
    ∀ (l : List String) (c : Nat), (buildPrefixList l c).length = l.length := by
  intro l
  induction l with
  | nil => intro c; rfl
  | cons x rest ih =>
      intro c
      by_cases hx : x = "DAV:"
      · simp [buildPrefixList, hx, ih]
      · simp [buildPrefixList, hx, ih]

theorem find?_assoc_key (ns : String) :
    ∀ al : List (String × String), (∃ e ∈ al, e.1 = ns) →
      ∃ e', al.find? (fun e => e.1 == ns) = some e' ∧ e' ∈ al ∧ e'.1 = ns := by
  intro al
  induction al with
  | nil => intro h; rcases h with ⟨e, he, _⟩; exact absurd he (by simp)
  | cons e rest ih =>
      intro h
      by_cases he : e.1 = ns
      · refine ⟨e, ?_, List.mem_cons_self _ _, he⟩
        simp [List.find?_cons, he]
      · have hrest : ∃ e' ∈ rest, e'.1 = ns := by
          rcases h with ⟨e', he', hk⟩
          rcases List.mem_cons.mp he' with rfl | hmem
          · exact absurd hk he
          · exact ⟨e', hmem, hk⟩
        rcases ih hrest with ⟨e', hfind, hmem, hk⟩
        refine ⟨e', ?_, List.mem_cons_of_mem _ hmem, hk⟩
        simpa [List.find?_cons, he] using hfind

theorem xmlnsDecl_contains (props : List PropertyDefinition) (ns : String)
    (hmem : ns ∈ props.map (·.«namespace»)) :
    ∃ pfx, ("xmlns:" ++ pfx ++ "=\"" ++ escapeXmlAttribute ns ++ "\"").data <:+:
      (xmlnsDecl props).data := by
  have hns : ns ∈ namespacesOf props :=
    mem_dedupFirstAux _ [] ns hmem (by simp)
  rcases exists_mem_buildPrefixList (namespacesOf props) 0 ns hns with ⟨pfx, hp⟩
  refine ⟨pfx, ?_⟩
  have hmem2 :
      ("xmlns:" ++ pfx ++ "=\"" ++ escapeXmlAttribute ns ++ "\"") ∈
        (prefixList props).map
          (fun e => "xmlns:" ++ e.2 ++ "=\"" ++ escapeXmlAttribute e.1 ++ "\"") :=
    List.mem_map_of_mem _ hp
  exact mem_joinSep " " _ _ hmem2

theorem output_contains_xmlnsDecl (props : List PropertyDefinition) :
    (xmlnsDecl props).data <:+: (generatePropfindXml props).data := by
  have hout : generatePropfindXml props =
      "<?xml version=\"1.0\" encoding=\"utf-8\"?>\n<D:propfind " ++
        xmlnsDecl props ++
        (">\n  <D:prop>\n    " ++ propLines props ++
          "\n  </D:prop>\n</D:propfind>") := by
    unfold generatePropfindXml
    simp [String.ext_iff, String.data_append]
  rw [hout]
  exact ⟨"<?xml version=\"1.0\" encoding=\"utf-8\"?>\n<D:propfind ".data,
    (">\n  <D:prop>\n    " ++ propLines props ++
      "\n  </D:prop>\n</D:propfind>").data,
    by simp [String.data_append]⟩

set_option maxRecDepth 8000 in
/-- Claim C6 counterexample: the namespace `http://x/&amp;` passes
validation and contains `&`, yet the raw unescaped namespace string
reappears inside the output of the escaping generator (escaping turns it
into `http://x/&amp;amp;`, whose prefix is the raw value) — and appears
verbatim in the non-escaping `fs/promises` generator. -/
theorem presets_C6_cex :
    isValidNamespace nsSneaky = true ∧
    hasSpecialChar nsSneaky = true ∧
    propNameOk "t" = true ∧
    (nsSneaky.data <:+: (generatePropfindXml propsSneaky).data) ∧
    (nsSneaky.data <:+: (generatePropfindXmlRaw propsSneaky).data) := by
  decide

/-- Claim C6 (amended): for every property list and every namespace of it
containing `&`, `<` or `>`: the output contains the namespace in
XML-attribute-escaped form inside its `xmlns` declaration; the escaped
value contains no raw `<` or `>` and every `&` in it starts an XML entity;
and the raw namespace does not reappear inside its escaped attribute value
provided every `&` of the namespace is immediately followed by a character
other than `a`, `l`, `g`, `q` (the counterexample shows the proviso is
necessary). -/
theorem presets_C6_amended (props : List PropertyDefinition) (ns : String)
    (hmem : ns ∈ props.map (·.«namespace»))
    (hspec : hasSpecialChar ns = true) :
    (∃ pfx, ("xmlns:" ++ pfx ++ "=\"" ++ escapeXmlAttribute ns ++ "\"").data <:+:
        (generatePropfindXml props).data) ∧
    (∀ c ∈ (escapeXmlAttribute ns).data, c ≠ '<' ∧ c ≠ '>') ∧
    ampsOk (escapeXmlAttribute ns).data = true ∧
    (goodAmps ns.data = true →
      ¬ (ns.data <:+: (escapeXmlAttribute ns).data)) := by
  refine ⟨?_, ?_, ?_, ?_⟩
  · rcases xmlnsDecl_contains props ns hmem with ⟨pfx, hinf⟩
    exact ⟨pfx, hinf.trans (output_contains_xmlnsDecl props)⟩
  · exact escapeData_no_angle ns.data
  · exact ampsOk_escapeData ns.data
  · intro hga
    exact escape_no_raw ns hspec hga

set_option maxRecDepth 8000 in
/-- Witness for `presets_C6_amended` at the namespace `http://e/a&b`. -/
theorem presets_C6_amended_witness :
    (∃ pfx,
      ("xmlns:" ++ pfx ++ "=\"" ++ escapeXmlAttribute nsGoodAmp ++ "\"").data <:+:
        (generatePropfindXml propsGoodAmp).data) ∧
    (∀ c ∈ (escapeXmlAttribute nsGoodAmp).data, c ≠ '<' ∧ c ≠ '>') ∧
    ampsOk (escapeXmlAttribute nsGoodAmp).data = true ∧
    ¬ (nsGoodAmp.data <:+: (escapeXmlAttribute nsGoodAmp).data) := by
  have h := presets_C6_amended propsGoodAmp nsGoodAmp (by decide) (by decide)
  exact ⟨h.1, h.2.1, h.2.2.1, h.2.2.2 (by decide)⟩

set_option maxRecDepth 8000 in
/-- Claim C7 counterexample: with no `DAV:` property in the list, the root
element still uses the hardcoded prefix `D` (`<D:propfind`), but no
`xmlns:D` declaration is emitted — the document is not namespace-well-formed
XML. -/
theorem presets_C7_cex :
    "D" ∈ usedAliases propsNoDav ∧
    "D" ∉ declaredAliases propsNoDav ∧
    ("<D:propfind".data <:+: (generatePropfindXml propsNoDav).data) ∧
    ¬ ("xmlns:D".data <:+: (generatePropfindXml propsNoDav).data) := by
  decide

/-- Claim C7 (amended): the root declares exactly one namespace attribute
per distinct namespace of the input (in first-seen order, without
repetition), and — provided at least one property has namespace `DAV:` —
every alias used by any element of the document, including the hardcoded
`D` of the `propfind` and `prop` elements, is declared on the root. -/
theorem presets_C7_amended (props : List PropertyDefinition)
    (hdav : "DAV:" ∈ props.map (·.«namespace»)) :
    (declaredAliases props).length = (namespacesOf props).length ∧
    (namespacesOf props).Nodup ∧
    ∀ a ∈ usedAliases props, a ∈ declaredAliases props := by
  refine ⟨?_, ?_, ?_⟩
  · unfold declaredAliases prefixList
    rw [List.length_map, length_buildPrefixList]
  · exact (nodup_dedupFirstAux _ []).1
  · intro a ha
    have hdavns : "DAV:" ∈ namespacesOf props :=
      mem_dedupFirstAux _ [] _ hdav (by simp)
    have hD : "D" ∈ declaredAliases props :=
      List.mem_map_of_mem _ (dav_mem_buildPrefixList _ 0 hdavns)
    rcases List.mem_cons.mp ha with rfl | ha
    · exact hD
    rcases List.mem_cons.mp ha with rfl | ha
    · exact hD
    rcases List.mem_map.mp ha with ⟨p, hp, rfl⟩
    have hns : p.«namespace» ∈ namespacesOf props :=
      mem_dedupFirstAux _ [] _ (List.mem_map_of_mem _ hp) (by simp)
    rcases exists_mem_buildPrefixList _ 0 _ hns with ⟨pfx, hentry⟩
    rcases find?_assoc_key p.«namespace» (prefixList props)
        ⟨(p.«namespace», pfx), hentry, rfl⟩ with ⟨e', hfind, hmem', hkey⟩
    have heq : prefixOf props p.«namespace» = e'.2 := by
      unfold prefixOf
      rw [hfind]
      rfl
    rw [heq]
    exact List.mem_map_of_mem _ hmem'

/-- Witness for `presets_C7_amended` at a one-element `DAV:` list. -/
theorem presets_C7_amended_witness :
    (declaredAliases propsDav).length = (namespacesOf propsDav).length ∧
    (namespacesOf propsDav).Nodup ∧
    ∀ a ∈ usedAliases propsDav, a ∈ declaredAliases propsDav :=
  presets_C7_amended propsDav (by decide)
